import Mathlib

/-!
Shallow embedding of the cardinality estimator in src/src/estimator.rs.

The estimator keeps one of four representations (Small, Slice, HashSet,
HyperLogLog) and promotes between them as distinct elements arrive.  The
embedding models machine integers as natural numbers with explicit masks
and reductions, heap buffers as lists of 32-bit words, and the hash set as
a Finset of encoded hashes.  Three pieces of behaviour live outside src and
are kept abstract parameters of the model:
* the IEEE f32 update of the harmonic-sum word performed by set_register
  (parameter g, mapping the old word and the old and new rank to the new
  word);
* the hashbrown capacity/layout test that triggers the HashSet to
  HyperLogLog promotion in insert_into_set (parameter p, a predicate on the
  current number of elements, which is what the deterministic hashbrown
  growth makes it);
* the LogLog-beta f64 estimate of a dense sketch (parameter f, a function
  of the buffer words).
-/

namespace CardEst

set_option maxRecDepth 16384

/-- MAX_SLICE_CAPACITY from the source: maximum number of elements held by
the slice representation. -/
def MAX_SLICE_CAPACITY : ℕ := 16

/-- SMALL_MASK from the source: 31-bit mask for the two inline hashes of the
small representation. -/
def SMALL_MASK : ℕ := 2 ^ 31 - 1

/-- Fuel-bounded count of trailing zero bits of a positive number. -/
def tzFuel : ℕ → ℕ → ℕ
| 0, _ => 0
| f + 1, x => if x % 2 = 1 then 0 else tzFuel f (x / 2) + 1

/-- Rust u64 trailing_zeros: 64 on input 0, otherwise the number of
trailing zero bits. -/
def tz64 (x : ℕ) : ℕ := if x = 0 then 64 else tzFuel 64 x

/-- Bitwise complement of a 64-bit value. -/
def unot64 (x : ℕ) : ℕ := 2 ^ 64 - 1 - x % 2 ^ 64

/-- Bitwise complement of a 32-bit value. -/
def u32not (x : ℕ) : ℕ := 2 ^ 32 - 1 - x % 2 ^ 32

/-- Fuel-bounded doubling loop behind next_power_of_two. -/
def np2Go (n : ℕ) : ℕ → ℕ → ℕ
| 0, c => c
| f + 1, c => if n ≤ c then c else np2Go n f (2 * c)

/-- Rust usize next_power_of_two, total on the sizes the estimator uses. -/
def np2 (n : ℕ) : ℕ := np2Go n 64 1

/-- encode_hash from the source: sparse 31-bit encoding of a 64-bit hash.
idx keeps the low 32 - W - 1 bits of the hash, rank is one plus the number
of trailing zeros of the complemented hash shifted right by P. -/
def encodeHash (P W hash : ℕ) : ℕ :=
  let idx := (hash % 2 ^ 32) &&& (2 ^ (32 - W - 1) - 1)
  let rank := tz64 (unot64 hash >>> P) + 1
  (idx <<< W) ||| rank

/-- decode_hash from the source: register index and rank recovered from the
low bits of a sparse encoding. -/
def decodeHash (P W h : ℕ) : ℕ × ℕ :=
  let rank := h &&& (2 ^ W - 1)
  let idx := (h >>> W) &&& (2 ^ P - 1)
  (idx, rank)

/-- First inline hash of the small representation (bits 2..32). -/
def smallH1 (d : ℕ) : ℕ := (d >>> 2) &&& SMALL_MASK

/-- Second inline hash of the small representation (bits 33..63). -/
def smallH2 (d : ℕ) : ℕ := (d >>> 33) &&& SMALL_MASK

/-- estimate_small from the source: 0, 1 or 2 by the match on the two
slots, in source order. -/
def estimateSmall (d : ℕ) : ℕ :=
  if smallH1 d = 0 ∧ smallH2 d = 0 then 0
  else if smallH2 d = 0 then 1
  else 2

/-- HLL_SLICE_LEN from the source: two summary words, the packed register
words by flooring division, and one extra word. -/
def hllSliceLen (P W : ℕ) : ℕ := 2 ^ P * W / 32 + 3

/-- Index of the first of the two words touched by get_register and
set_register for a given register index. -/
def regWordIdx (W idx : ℕ) : ℕ := idx * W / 32 + 2

/-- get_register from the source: reassemble the W-bit field straddling two
adjacent buffer words. -/
def getRegister (W : ℕ) (data : List ℕ) (idx : ℕ) : ℕ :=
  let bitPos := idx * W % 32
  let bits1 := min W (32 - bitPos)
  let bits2 := W - bits1
  let mask1 := (1 <<< bits1) - 1
  let mask2 := (1 <<< bits2) - 1
  let b0 := data.getD (regWordIdx W idx) 0
  let b1 := data.getD (regWordIdx W idx + 1) 0
  ((b0 >>> bitPos) &&& mask1) ||| ((b1 &&& mask2) <<< bits1)

/-- set_register from the source: mask-and-or the new rank into the two
adjacent words, then update the zero-register count and hand the
harmonic-sum word to the abstract f32 update g. -/
def setRegister (W : ℕ) (g : ℕ → ℕ → ℕ → ℕ) (data : List ℕ)
    (idx oldRank newRank : ℕ) : List ℕ :=
  let bitPos := idx * W % 32
  let bits1 := min W (32 - bitPos)
  let bits2 := W - bits1
  let mask1 := (1 <<< bits1) - 1
  let mask2 := (1 <<< bits2) - 1
  let i := regWordIdx W idx
  let b0 := data.getD i 0
  let b1 := data.getD (i + 1) 0
  let b0n := (b0 &&& u32not (mask1 <<< bitPos)) ||| ((newRank &&& mask1) <<< bitPos)
  let b1n := (b1 &&& u32not mask2) ||| ((newRank >>> bits1) &&& mask2)
  let d1 := (data.set i b0n).set (i + 1) b1n
  let z := d1.getD 0 0
  let zn := z - (if oldRank = 0 ∧ 0 < z then 1 else 0)
  let sn := g (d1.getD 1 0) oldRank newRank
  (d1.set 0 zn).set 1 sn

/-- insert_into_hll from the source: write only on a strictly greater
rank. -/
def insertIntoHll (W : ℕ) (g : ℕ → ℕ → ℕ → ℕ) (data : List ℕ)
    (idx newRank : ℕ) : List ℕ :=
  let oldRank := getRegister W data idx
  if oldRank < newRank then setRegister W g data idx oldRank newRank else data

/-- The four representation tags of the estimator. -/
inductive Representation
| small
| slice
| hashSet
| hyperLogLog
deriving DecidableEq

/-- Estimator state: the active representation together with its buffer.
Small keeps the raw state word (tag bits zero), Slice keeps the allocated
u32 buffer and the in-use length, HashSet keeps the set of encoded hashes,
HyperLogLog keeps the dense buffer words. -/
inductive Est
| small (d : ℕ)
| slice (buf : List ℕ) (len : ℕ)
| hset (s : Finset ℕ)
| hll (buf : List ℕ)

/-- representation() from the source. -/
def representationOf : Est → Representation
| .small _ => .small
| .slice _ _ => .slice
| .hset _ => .hashSet
| .hll _ => .hyperLogLog

/-- contains_fixed_vectorized from the source: or-fold of lane-wise
equality over one chunk. -/
def containsFixedVectorized (a : List ℕ) (v : ℕ) : Bool :=
  a.foldl (fun res x => res || decide (x = v)) false

/-- Fuel-driven chunked scan behind contains_vectorized. -/
def containsVecGo (N v : ℕ) : ℕ → List ℕ → Bool
| 0, _ => false
| f + 1, a =>
  if a.length < N ∨ N = 0 then false
  else containsFixedVectorized (a.take N) v || containsVecGo N v f (a.drop N)

/-- contains_vectorized from the source: scan the slice in exact chunks of
N lanes, dropping any partial tail chunk. -/
def containsVectorized (N : ℕ) (a : List ℕ) (v : ℕ) : Bool :=
  containsVecGo N v a.length a

/-- insert_into_small from the source, operating on the raw state word. -/
def insertIntoSmall (d h : ℕ) : Est :=
  let h1 := smallH1 d
  if h1 = 0 then .small (d ||| (h <<< 2))
  else if h1 = h then .small d
  else
    let h2 := smallH2 d
    if h2 = 0 then .small (d ||| (h <<< 33))
    else if h2 = h then .small d
    else .slice [h1, h2, h, 0] 3

/-- insert_into_slice from the source: vectorized duplicate scan (4 lanes
for capacity 4, otherwise 8 lanes over the length rounded up to a multiple
of 8), then append, grow by doubling, or promote to the hash set. -/
def insertIntoSlice (buf : List ℕ) (len h : ℕ) : Est :=
  let cap := buf.length
  let found :=
    if cap = 4 then containsVectorized 4 buf h
    else containsVectorized 8 (buf.take (8 * ((len + 7) / 8))) h
  if found then .slice buf len
  else if len < cap then .slice (buf.set len h) (len + 1)
  else if cap < MAX_SLICE_CAPACITY then
    .slice ((buf ++ List.replicate cap 0).set len h) (len + 1)
  else
    .hset (insert h buf.toFinset)

/-- Bit pattern of the f32 value 2 to the P (data slot 1 of a fresh dense
buffer). -/
def f32bitsPow2 (P : ℕ) : ℕ := (127 + P) * 2 ^ 23

/-- Fresh dense buffer as allocated by the HashSet promotion: slot 0 holds
the register count M, slot 1 the f32 bits of M, the rest zero. -/
def hllInit (P W : ℕ) : List ℕ :=
  ((List.replicate (hllSliceLen P W) 0).set 0 (2 ^ P)).set 1 (f32bitsPow2 P)

/-- Fold a list of encoded hashes into a dense buffer through decode and
insert_into_hll. -/
def mergeHllList (P W : ℕ) (g : ℕ → ℕ → ℕ → ℕ) (rbuf : List ℕ)
    (codes : List ℕ) : List ℕ :=
  codes.foldl
    (fun b c => insertIntoHll W g b (decodeHash P W c).1 (decodeHash P W c).2) rbuf

/-- insert_into_set from the source.  The hashbrown capacity test and the
layout-size threshold are the abstract promotion predicate p on the current
number of elements; on promotion every stored code is decoded into a fresh
dense buffer (iterated here in sorted order) and the incoming code follows
through insert_encoded_hash, which on a dense sketch decodes and applies
insert_into_hll. -/
def insertIntoSet (P W : ℕ) (p : ℕ → Bool) (g : ℕ → ℕ → ℕ → ℕ)
    (s : Finset ℕ) (h : ℕ) : Est :=
  if p s.card then
    let data := mergeHllList P W g (hllInit P W) (s.sort (· ≤ ·))
    .hll (insertIntoHll W g data (decodeHash P W h).1 (decodeHash P W h).2)
  else .hset (insert h s)

/-- insert_encoded_hash from the source: dispatch on the representation. -/
def insertEncodedHash (P W : ℕ) (p : ℕ → Bool) (g : ℕ → ℕ → ℕ → ℕ) :
    Est → ℕ → Est
| .small d, h => insertIntoSmall d h
| .slice buf len, h => insertIntoSlice buf len h
| .hset s, h => insertIntoSet P W p g s h
| .hll buf, h => .hll (insertIntoHll W g buf (decodeHash P W h).1 (decodeHash P W h).2)

/-- insert_hash from the source: a dense sketch takes the index and rank
straight from the 64-bit hash, every other representation goes through
encode_hash. -/
def insertHash (P W : ℕ) (p : ℕ → Bool) (g : ℕ → ℕ → ℕ → ℕ)
    (e : Est) (hash : ℕ) : Est :=
  match e with
  | .hll buf =>
      let idx := (hash % 2 ^ 64) &&& (2 ^ P - 1)
      let rank := tz64 (unot64 hash >>> P) + 1
      .hll (insertIntoHll W g buf idx rank)
  | e => insertEncodedHash P W p g e (encodeHash P W hash)

/-- merge from the source, table-driven on the pair of representations.
Iteration over a hash set uses sorted order. -/
def mergeE (P W : ℕ) (p : ℕ → Bool) (g : ℕ → ℕ → ℕ → ℕ) (a rhs : Est) : Est :=
  match a, rhs with
  | a, .small d =>
      let a1 := if smallH1 d ≠ 0 then insertEncodedHash P W p g a (smallH1 d) else a
      if smallH2 d ≠ 0 then insertEncodedHash P W p g a1 (smallH2 d) else a1
  | a, .slice buf len => (buf.take len).foldl (insertEncodedHash P W p g) a
  | a, .hset s => (s.sort (· ≤ ·)).foldl (insertEncodedHash P W p g) a
  | .small d, .hll rbuf =>
      let d1 := if smallH1 d ≠ 0 then
          insertIntoHll W g rbuf (decodeHash P W (smallH1 d)).1 (decodeHash P W (smallH1 d)).2
        else rbuf
      let d2 := if smallH2 d ≠ 0 then
          insertIntoHll W g d1 (decodeHash P W (smallH2 d)).1 (decodeHash P W (smallH2 d)).2
        else d1
      .hll d2
  | .slice buf len, .hll rbuf => .hll (mergeHllList P W g rbuf (buf.take len))
  | .hset s, .hll rbuf => .hll (mergeHllList P W g rbuf (s.sort (· ≤ ·)))
  | .hll lbuf, .hll rbuf =>
      .hll ((List.range (2 ^ P)).foldl (fun b i =>
        let lr := getRegister W b i
        let rr := getRegister W rbuf i
        if lr < rr then setRegister W g b i lr rr else b) lbuf)

/-- new() from the source: the empty small representation. -/
def newE : Est := .small 0

/-- clone from the source: merge self into a fresh empty estimator. -/
def cloneE (P W : ℕ) (p : ℕ → Bool) (g : ℕ → ℕ → ℕ → ℕ) (a : Est) : Est :=
  mergeE P W p g newE a

/-- as_slice from the source: the view of the slice buffer whose length is
the next power of two of the in-use length. -/
def asSliceView (buf : List ℕ) (len : ℕ) : List ℕ := buf.take (np2 len)

/-- PartialEq from the source: representations must match, then Small
compares the state words, Slice and HyperLogLog compare the buffers, and
HashSet compares the sets. -/
def beqE : Est → Est → Bool
| .small d1, .small d2 => decide (d1 = d2)
| .slice b1 l1, .slice b2 l2 => decide (asSliceView b1 l1 = asSliceView b2 l2)
| .hset s1, .hset s2 => decide (s1 = s2)
| .hll b1, .hll b2 => decide (b1 = b2)
| _, _ => false

/-- estimate from the source; the dense LogLog-beta estimate is the
abstract f of the buffer words. -/
def estimateE (f : List ℕ → ℕ) : Est → ℕ
| .small d => estimateSmall d
| .slice _ len => len
| .hset s => s.card
| .hll buf => f buf

/-- size_of from the source; the hashbrown allocation size of a hash set is
the abstract szH. -/
def sizeOfE (szH : Finset ℕ → ℕ) (P W : ℕ) : Est → ℕ
| .small _ => 8
| .slice _ len => 8 + 4 * np2 len
| .hset s => 8 + szH s
| .hll _ => 8 + 4 * hllSliceLen P W

/-- Modelled from the spec: the default WyHash hasher is an external crate,
not under src.  The spec requires only a deterministic 64-bit hasher with
good avalanche, and the repository test table (test_estimator_p12_w6 in the
source) records that the keys 0, 1 and 2 hash to three distinct encoded
values (representation Slice and estimate 3 after the three inserts).  The
model maps the key k to the hash k + 1, which reproduces that
distinctness. -/
def wyhashModel (k : ℕ) : ℕ := k + 1

/-- Estimator state after inserting the keys 0 .. k-1 through the modelled
hasher at P = 12, W = 6.  The promotion predicate and the f32 sum update
are never consulted on this all-small path and are instantiated
trivially. -/
def scenarioS1 (k : ℕ) : Est :=
  ((List.range k).map wyhashModel).foldl
    (insertHash 12 6 (fun _ => false) (fun s _ _ => s)) newE

/-- Structural invariant of the small representation: the state word packs
two 31-bit hashes, the second slot is used only after the first, and the
two occupied slots differ. -/
def InvSmall (d : ℕ) : Prop :=
  ∃ h1 h2 : ℕ, h1 < 2 ^ 31 ∧ h2 < 2 ^ 31 ∧ (h1 = 0 → h2 = 0) ∧
    (h2 ≠ 0 → h1 ≠ h2) ∧ d = (h1 <<< 2) ||| (h2 <<< 33)

/-- Structural invariant of a reachable estimator state.  For a slice: the
in-use length is between 3 and 16, the allocation is the next power of two
of the length, the in-use entries are distinct nonzero 31-bit codes and the
tail is zero.  For a hash set: at least 17 distinct nonzero codes, and the
promotion predicate answered false at every size the set has passed
through.  For a dense sketch: the buffer has the fixed length. -/
def InvE (P W : ℕ) (p : ℕ → Bool) : Est → Prop
| .small d => InvSmall d
| .slice buf len => 3 ≤ len ∧ len ≤ 16 ∧ buf.length = np2 len ∧
    (buf.take len).Nodup ∧ (∀ c ∈ buf.take len, c ≠ 0 ∧ c < 2 ^ 31) ∧
    (∀ c ∈ buf.drop len, c = 0)
| .hset s => 17 ≤ s.card ∧ (∀ c ∈ s, c ≠ 0 ∧ c < 2 ^ 31) ∧
    (∀ k, 17 ≤ k → k < s.card → p k = false)
| .hll buf => buf.length = hllSliceLen P W

/-- Canonical state reached by inserting a list of distinct nonzero codes
into a fresh estimator (when no hash-set promotion fires). -/
def canonE (l : List ℕ) : Est :=
  if l.length ≤ 2 then .small ((l.getD 0 0 <<< 2) ||| (l.getD 1 0 <<< 33))
  else if l.length ≤ 16 then
    .slice (l ++ List.replicate (np2 l.length - l.length) 0) l.length
  else .hset l.toFinset

/-- States reachable through the public interface: a fresh estimator,
hash insertion, and merge. -/
inductive ReachableE (P W : ℕ) (p : ℕ → Bool) (g : ℕ → ℕ → ℕ → ℕ) : Est → Prop
| base : ReachableE P W p g newE
| ins (e hash) : ReachableE P W p g e → ReachableE P W p g (insertHash P W p g e hash)
| mrg (a b) : ReachableE P W p g a → ReachableE P W p g b →
    ReachableE P W p g (mergeE P W p g a b)

/-! ## Bit-arithmetic toolkit -/

theorem tzFuel_le (f : ℕ) : ∀ x, tzFuel f x ≤ f := by
  induction f with
  | zero => intro x; simp [tzFuel]
  | succ n ih =>
    intro x
    simp only [tzFuel]
    split
    · omega
    · have := ih (x / 2); omega

theorem tz64_le (x : ℕ) : tz64 x ≤ 64 := by
  unfold tz64
  split
  · exact Nat.le_refl _
  · exact tzFuel_le 64 x

theorem or_eq_zero_right {x y : ℕ} (h : x ||| y = 0) : y = 0 := by
  apply Nat.eq_of_testBit_eq
  intro i
  have h2 := congrArg (fun z => Nat.testBit z i) h
  simp only [Nat.testBit_or, Nat.zero_testBit, Bool.or_eq_false_iff] at h2
  simp [h2.2]

theorem shiftLeft_lor_eq_add : ∀ (n a b : ℕ), b < 2 ^ n →
    (a <<< n) ||| b = a * 2 ^ n + b := by
  intro n
  induction n with
  | zero =>
    intro a b hb
    interval_cases b
    simp [Nat.shiftLeft_zero]
  | succ n ih =>
    intro a b hb
    have hpow : (2 : ℕ) ^ (n + 1) = 2 ^ n * 2 := pow_succ 2 n
    have hx : a <<< (n + 1) = a * 2 ^ n * 2 := by
      rw [Nat.shiftLeft_eq, hpow, Nat.mul_assoc]
    have hdiv : ((a <<< (n + 1)) ||| b) / 2 = (a <<< n) ||| (b / 2) := by
      rw [Nat.or_div_two]
      congr 1
      rw [hx, Nat.shiftLeft_eq, Nat.mul_div_cancel _ (by norm_num)]
    have hx2 : (a <<< (n + 1)) % 2 = 0 := by
      rw [hx, Nat.mul_mod_left]
    have hb1 : ((a <<< (n + 1)) ||| b) % 2 = 1 ↔ b % 2 = 1 := by
      rw [Nat.or_mod_two_eq_one, hx2]
      simp
    have hmod : ((a <<< (n + 1)) ||| b) % 2 = b % 2 := by
      rcases Nat.mod_two_eq_zero_or_one ((a <<< (n + 1)) ||| b) with h | h <;>
        rcases Nat.mod_two_eq_zero_or_one b with h2 | h2
      · omega
      · exfalso; have := hb1.mpr h2; omega
      · exfalso; have := hb1.mp h; omega
      · omega
    have hrec := ih a (b / 2) (by omega)
    have hsd := Nat.div_add_mod ((a <<< (n + 1)) ||| b) 2
    rw [hdiv, hrec, hmod] at hsd
    have hb2 := Nat.div_add_mod b 2
    have hmul : a * 2 ^ (n + 1) = a * 2 ^ n * 2 := by
      rw [hpow, Nat.mul_assoc]
    omega

theorem pack_eq (h1 h2 : ℕ) (H1 : h1 < 2 ^ 31) :
    (h1 <<< 2) ||| (h2 <<< 33) = h2 * 2 ^ 33 + h1 * 4 := by
  rw [Nat.or_comm]
  have hb : h1 <<< 2 < 2 ^ 33 := by
    rw [Nat.shiftLeft_eq]
    omega
  rw [shiftLeft_lor_eq_add 33 h2 (h1 <<< 2) hb, Nat.shiftLeft_eq]

theorem smallH1_pack (h1 h2 : ℕ) (H1 : h1 < 2 ^ 31) :
    smallH1 ((h1 <<< 2) ||| (h2 <<< 33)) = h1 := by
  rw [pack_eq h1 h2 H1]
  unfold smallH1 SMALL_MASK
  rw [Nat.shiftRight_eq_div_pow, Nat.and_pow_two_sub_one_eq_mod]
  have hfac : h2 * 2 ^ 33 + h1 * 4 = (h2 * 2 ^ 31 + h1) * 2 ^ 2 := by ring
  rw [hfac, Nat.mul_div_cancel _ (by norm_num)]
  rw [Nat.mul_comm h2 (2 ^ 31), Nat.mul_add_mod]
  exact Nat.mod_eq_of_lt H1

theorem smallH2_pack (h1 h2 : ℕ) (H1 : h1 < 2 ^ 31) (H2 : h2 < 2 ^ 31) :
    smallH2 ((h1 <<< 2) ||| (h2 <<< 33)) = h2 := by
  rw [pack_eq h1 h2 H1]
  unfold smallH2 SMALL_MASK
  rw [Nat.shiftRight_eq_div_pow, Nat.and_pow_two_sub_one_eq_mod]
  rw [Nat.add_comm (h2 * 2 ^ 33) (h1 * 4)]
  rw [Nat.add_mul_div_right _ _ (by positivity : (0:ℕ) < 2 ^ 33)]
  rw [Nat.div_eq_of_lt (by omega), Nat.zero_add]
  exact Nat.mod_eq_of_lt (by omega)

theorem smallH1_zero : smallH1 0 = 0 := by simp [smallH1]

theorem smallH2_zero : smallH2 0 = 0 := by simp [smallH2]

theorem encodeHash_ne_zero (P W h : ℕ) : encodeHash P W h ≠ 0 := by
  unfold encodeHash
  intro hc
  have := or_eq_zero_right hc
  omega

theorem encodeHash_lt (P W h : ℕ) (hW : W ≤ 6) : encodeHash P W h < 2 ^ 31 := by
  unfold encodeHash
  apply Nat.or_lt_two_pow
  · have hidx : (h % 2 ^ 32) &&& (2 ^ (32 - W - 1) - 1) < 2 ^ (32 - W - 1) := by
      rw [Nat.and_pow_two_sub_one_eq_mod]
      exact Nat.mod_lt _ (by positivity)
    have h2W : (0 : ℕ) < 2 ^ W := by positivity
    rw [Nat.shiftLeft_eq]
    calc ((h % 2 ^ 32) &&& (2 ^ (32 - W - 1) - 1)) * 2 ^ W
        < 2 ^ (32 - W - 1) * 2 ^ W := (Nat.mul_lt_mul_right h2W).mpr hidx
      _ ≤ 2 ^ 31 := by
          rw [← pow_add]
          apply pow_le_pow_right₀ (by norm_num)
          omega
  · have := tz64_le (unot64 h >>> P)
    calc tz64 (unot64 h >>> P) + 1 ≤ 65 := by omega
      _ < 2 ^ 31 := by norm_num

/-! ## Characterization of the vectorized duplicate scan -/

theorem containsFixed_eq_any (a : List ℕ) (v : ℕ) :
    containsFixedVectorized a v = a.any (fun x => decide (x = v)) := by
  unfold containsFixedVectorized
  suffices h : ∀ acc : Bool, a.foldl (fun res x => res || decide (x = v)) acc
      = (acc || a.any (fun x => decide (x = v))) by
    have h2 := h false
    rw [Bool.false_or] at h2
    exact h2
  induction a with
  | nil => intro acc; simp
  | cons x xs ih =>
    intro acc
    simp only [List.foldl_cons, List.any_cons, ih, Bool.or_assoc]

theorem containsFixed_iff (a : List ℕ) (v : ℕ) :
    containsFixedVectorized a v = true ↔ v ∈ a := by
  rw [containsFixed_eq_any, List.any_eq_true]
  constructor
  · rintro ⟨x, hx, he⟩
    simp only [decide_eq_true_eq] at he
    exact he ▸ hx
  · intro hm
    exact ⟨v, hm, by simp⟩

theorem containsVecGo_iff (N v : ℕ) (hN : 0 < N) : ∀ (f : ℕ) (a : List ℕ),
    a.length ≤ f →
    (containsVecGo N v f a = true ↔ v ∈ a.take (N * (a.length / N))) := by
  intro f
  induction f with
  | zero =>
    intro a ha
    have hnil : a = [] := List.eq_nil_of_length_eq_zero (by omega)
    subst hnil
    simp [containsVecGo]
  | succ f ih =>
    intro a ha
    simp only [containsVecGo]
    by_cases hlen : a.length < N
    · have hdiv : a.length / N = 0 := Nat.div_eq_of_lt hlen
      rw [if_pos (Or.inl hlen)]
      simp [hdiv]
    · push_neg at hlen
      have hguard : ¬(a.length < N ∨ N = 0) := by omega
      rw [if_neg hguard]
      rw [Bool.or_eq_true, containsFixed_iff,
        ih (a.drop N) (by rw [List.length_drop]; omega)]
      have hq : a.length / N = (a.drop N).length / N + 1 := by
        rw [List.length_drop, Nat.div_eq_sub_div hN hlen]
      rw [hq]
      have hmul : N * ((a.drop N).length / N + 1)
          = N + N * ((a.drop N).length / N) := by ring
      rw [hmul, List.take_add]
      simp only [List.mem_append]

theorem containsVectorized_iff (N : ℕ) (hN : 0 < N) (a : List ℕ) (v : ℕ) :
    containsVectorized N a v = true ↔ v ∈ a.take (N * (a.length / N)) :=
  containsVecGo_iff N v hN a.length a (Nat.le_refl _)

theorem containsVectorized_iff_of_dvd (N : ℕ) (hN : 0 < N) (a : List ℕ) (v : ℕ)
    (hd : N ∣ a.length) : (containsVectorized N a v = true ↔ v ∈ a) := by
  rw [containsVectorized_iff N hN, Nat.mul_div_cancel' hd, List.take_length]

theorem mem_iff_mem_take_of_zero_tail {buf : List ℕ} {len v : ℕ}
    (hz : ∀ c ∈ buf.drop len, c = 0) (hv : v ≠ 0) :
    v ∈ buf ↔ v ∈ buf.take len := by
  constructor
  · intro hm
    rw [← List.take_append_drop len buf] at hm
    rcases List.mem_append.mp hm with h | h
    · exact h
    · exact absurd (hz v h) hv
  · intro hm
    exact List.take_subset len buf hm

theorem found8_iff {buf : List ℕ} {len v : ℕ} (hz : ∀ c ∈ buf.drop len, c = 0)
    (hv : v ≠ 0) (hlen : len ≤ buf.length) (hdvd : 8 ∣ buf.length) :
    (containsVectorized 8 (buf.take (8 * ((len + 7) / 8))) v = true
      ↔ v ∈ buf.take len) := by
  obtain ⟨m, hm⟩ := hdvd
  have hrge : len ≤ 8 * ((len + 7) / 8) := by omega
  have hrle : 8 * ((len + 7) / 8) ≤ buf.length := by omega
  have hlen_take : (buf.take (8 * ((len + 7) / 8))).length = 8 * ((len + 7) / 8) := by
    rw [List.length_take]; omega
  have hdvd2 : 8 ∣ (buf.take (8 * ((len + 7) / 8))).length := by
    rw [hlen_take]; exact Dvd.intro _ rfl
  rw [containsVectorized_iff_of_dvd 8 (by norm_num) _ v hdvd2]
  have hz2 : ∀ c ∈ (buf.take (8 * ((len + 7) / 8))).drop len, c = 0 := by
    intro c hc
    rw [List.drop_take] at hc
    exact hz c (List.take_subset _ _ hc)
  rw [mem_iff_mem_take_of_zero_tail hz2 hv, List.take_take,
    Nat.min_eq_left hrge]

theorem found4_iff {buf : List ℕ} {len v : ℕ} (hz : ∀ c ∈ buf.drop len, c = 0)
    (hv : v ≠ 0) (hcap : buf.length = 4) :
    (containsVectorized 4 buf v = true ↔ v ∈ buf.take len) := by
  rw [containsVectorized_iff_of_dvd 4 (by norm_num) _ v (by rw [hcap]),
    mem_iff_mem_take_of_zero_tail hz hv]

/-! ## Buffer-length and next-power-of-two facts -/

theorem np2_facts (n : ℕ) (h3 : 3 ≤ n) (h16 : n ≤ 16) :
    n ≤ np2 n ∧ np2 n ≤ 16 ∧ (n < np2 n → np2 (n + 1) = np2 n) ∧
    (n = np2 n → np2 (n + 1) = 2 * n) ∧ (np2 n = 4 ↔ n ≤ 4) ∧
    (np2 n ≠ 4 → 8 ∣ np2 n) := by
  interval_cases n <;> refine ⟨by decide, by decide, ?_, ?_, by decide, ?_⟩ <;> decide

theorem setRegister_length (W : ℕ) (g : ℕ → ℕ → ℕ → ℕ) (data : List ℕ)
    (idx o n : ℕ) : (setRegister W g data idx o n).length = data.length := by
  simp [setRegister]

theorem insertIntoHll_length (W : ℕ) (g : ℕ → ℕ → ℕ → ℕ) (data : List ℕ)
    (idx n : ℕ) : (insertIntoHll W g data idx n).length = data.length := by
  have hdef : insertIntoHll W g data idx n
      = if getRegister W data idx < n then
          setRegister W g data idx (getRegister W data idx) n
        else data := rfl
  rw [hdef]
  split
  · exact setRegister_length W g data idx _ n
  · rfl

theorem mergeHllList_length (P W : ℕ) (g : ℕ → ℕ → ℕ → ℕ) (rbuf codes : List ℕ) :
    (mergeHllList P W g rbuf codes).length = rbuf.length := by
  unfold mergeHllList
  induction codes generalizing rbuf with
  | nil => rfl
  | cons c cs ih =>
    rw [List.foldl_cons, ih, insertIntoHll_length]

theorem hllInit_length (P W : ℕ) : (hllInit P W).length = hllSliceLen P W := by
  simp [hllInit]

theorem beqE_refl (a : Est) : beqE a a = true := by
  cases a <;> simp [beqE]

/-! ## Replay: inserting distinct nonzero codes into a fresh estimator -/

theorem insertIntoSet_no_promote (P W : ℕ) (p : ℕ → Bool) (g : ℕ → ℕ → ℕ → ℕ)
    (s : Finset ℕ) (c : ℕ) (hp : p s.card = false) :
    insertIntoSet P W p g s c = .hset (insert c s) := by
  simp [insertIntoSet, hp]

theorem insertIntoSlice_fresh (l : List ℕ) (c n : ℕ) (hn : l.length = n)
    (h3 : 3 ≤ n) (h16 : n ≤ 16) (_hnz : ∀ x ∈ l, x ≠ 0) (hcnz : c ≠ 0)
    (hcnot : c ∉ l) :
    insertIntoSlice (l ++ List.replicate (np2 n - n) 0) n c
      = if n < 16 then
          .slice ((l ++ [c]) ++ List.replicate (np2 (n + 1) - (n + 1)) 0) (n + 1)
        else .hset (insert c l.toFinset) := by
  obtain ⟨hle, hle16, hstay, hdouble, h4iff, hdvd8⟩ := np2_facts n h3 h16
  have hcap : (l ++ List.replicate (np2 n - n) 0).length = np2 n := by
    rw [List.length_append, List.length_replicate, hn]
    omega
  have hz : ∀ x ∈ (l ++ List.replicate (np2 n - n) 0).drop n, x = 0 := by
    intro x hx
    rw [List.drop_left' hn] at hx
    exact List.eq_of_mem_replicate hx
  have htake : (l ++ List.replicate (np2 n - n) 0).take n = l := List.take_left' hn
  have hfound : (if (l ++ List.replicate (np2 n - n) 0).length = 4 then
      containsVectorized 4 (l ++ List.replicate (np2 n - n) 0) c
    else containsVectorized 8
      ((l ++ List.replicate (np2 n - n) 0).take (8 * ((n + 7) / 8))) c) = false := by
    by_cases h4 : (l ++ List.replicate (np2 n - n) 0).length = 4
    · rw [if_pos h4]
      cases hF : containsVectorized 4 (l ++ List.replicate (np2 n - n) 0) c
      · rfl
      · exfalso
        have := (found4_iff hz hcnz h4).mp hF
        rw [htake] at this
        exact hcnot this
    · rw [if_neg h4]
      cases hF : containsVectorized 8
          ((l ++ List.replicate (np2 n - n) 0).take (8 * ((n + 7) / 8))) c
      · rfl
      · exfalso
        have h8 : 8 ∣ (l ++ List.replicate (np2 n - n) 0).length := by
          rw [hcap]
          exact hdvd8 (by rw [← hcap]; exact h4)
        have hnlen : n ≤ (l ++ List.replicate (np2 n - n) 0).length := by
          rw [hcap]; omega
        have := (found8_iff hz hcnz hnlen h8).mp hF
        rw [htake] at this
        exact hcnot this
  simp only [insertIntoSlice, hfound, Bool.false_eq_true, if_false]
  by_cases hlt : n < np2 n
  · rw [if_pos (by rw [hcap]; exact hlt)]
    rw [if_pos (by omega)]
    have hset1 : (l ++ List.replicate (np2 n - n) 0).set n c
        = (l ++ [c]) ++ List.replicate (np2 (n + 1) - (n + 1)) 0 := by
      rw [List.set_append_right _ _ (by omega), hn, Nat.sub_self]
      have hrep : (List.replicate (np2 n - n) 0).set 0 c
          = c :: List.replicate (np2 n - n - 1) 0 := by
        have hsplit : np2 n - n = (np2 n - n - 1) + 1 := by omega
        conv_lhs => rw [hsplit]
        rw [List.replicate_succ, List.set_cons_zero]
      rw [hrep, hstay hlt]
      have : np2 n - (n + 1) = np2 n - n - 1 := by omega
      rw [this, List.append_cons]
    rw [hset1]
  · have heq : n = np2 n := by omega
    rw [if_neg (by rw [hcap]; omega)]
    have hrep0 : np2 n - n = 0 := by omega
    have hbufl : l ++ List.replicate (np2 n - n) 0 = l := by
      rw [hrep0, List.replicate_zero, List.append_nil]
    by_cases h16' : n < 16
    · rw [if_pos (by rw [hcap, MAX_SLICE_CAPACITY]; omega)]
      rw [if_pos h16']
      rw [hbufl, hn]
      congr 1
      rw [List.set_append_right _ _ (show l.length ≤ n by omega), hn, Nat.sub_self]
      have hrep : (List.replicate n 0).set 0 c = c :: List.replicate (n - 1) 0 := by
        have hsplit : n = (n - 1) + 1 := by omega
        conv_lhs => rw [hsplit]
        rw [List.replicate_succ, List.set_cons_zero]
      rw [hrep, hdouble heq]
      have hsub : 2 * n - (n + 1) = n - 1 := by omega
      rw [hsub, List.append_cons]
    · rw [if_neg (by rw [hcap, MAX_SLICE_CAPACITY]; omega)]
      rw [if_neg h16']
      rw [hbufl]

theorem replay (P W : ℕ) (p : ℕ → Bool) (g : ℕ → ℕ → ℕ → ℕ) :
    ∀ l : List ℕ, (∀ x ∈ l, x ≠ 0 ∧ x < 2 ^ 31) → l.Nodup →
    (∀ k, 17 ≤ k → k < l.length → p k = false) →
    l.foldl (insertEncodedHash P W p g) newE = canonE l := by
  intro l
  induction l using List.reverseRecOn with
  | nil =>
    intro _ _ _
    simp [canonE, newE]
  | append_singleton l c ih =>
    intro hc hnd hp
    obtain ⟨hndl, -, hdisj⟩ := List.nodup_append.mp hnd
    have hcnot : c ∉ l := fun hm => hdisj hm (List.mem_singleton_self c)
    have hcprop : c ≠ 0 ∧ c < 2 ^ 31 := hc c (by simp)
    have hcl : ∀ x ∈ l, x ≠ 0 ∧ x < 2 ^ 31 := fun x hx => hc x (by simp [hx])
    have hpl : ∀ k, 17 ≤ k → k < l.length → p k = false := by
      intro k h17 hk
      exact hp k h17 (by simp; omega)
    rw [List.foldl_append, List.foldl_cons, List.foldl_nil, ih hcl hndl hpl]
    by_cases hlen2 : l.length ≤ 2
    · rcases l with _ | ⟨a, _ | ⟨b, _ | ⟨d, l4⟩⟩⟩
      · have h1 : canonE [] = .small 0 := by simp [canonE, List.getD]
        have h2 : canonE ([] ++ [c]) = .small (c <<< 2) := by
          simp [canonE, List.getD]
        rw [h1, h2]
        simp only [insertEncodedHash, insertIntoSmall]
        rw [if_pos smallH1_zero]
        congr 1
        rw [Nat.zero_or]
      · have ha := hcl a (by simp)
        have hac : a ≠ c := fun he => hcnot (by simp [he])
        have hcan1 : canonE [a] = .small ((a <<< 2) ||| (0 <<< 33)) := by
          unfold canonE
          norm_num [List.getD]
        have hcan2 : canonE ([a] ++ [c]) = .small ((a <<< 2) ||| (c <<< 33)) := by
          unfold canonE
          norm_num [List.getD]
        rw [hcan1, hcan2]
        simp only [insertEncodedHash, insertIntoSmall]
        rw [smallH1_pack a 0 ha.2, smallH2_pack a 0 ha.2 (by norm_num)]
        rw [if_neg ha.1, if_neg hac, if_pos rfl]
        congr 1
        rw [Nat.zero_shiftLeft, Nat.or_zero]
      · have ha := hcl a (by simp)
        have hb := hcl b (by simp)
        have hac : a ≠ c := fun he => hcnot (by simp [he])
        have hbc : b ≠ c := fun he => hcnot (by simp [he])
        have hcan1 : canonE [a, b] = .small ((a <<< 2) ||| (b <<< 33)) := by
          unfold canonE
          norm_num [List.getD]
        have hcan2 : canonE ([a, b] ++ [c]) = .slice [a, b, c, 0] 3 := by
          unfold canonE
          norm_num
          rw [show np2 3 - 3 = 1 by decide]
          simp
        rw [hcan1, hcan2]
        simp only [insertEncodedHash, insertIntoSmall]
        rw [smallH1_pack a b ha.2, smallH2_pack a b ha.2 hb.2]
        rw [if_neg ha.1, if_neg hac, if_neg hb.1, if_neg hbc]
      · simp at hlen2
    · push_neg at hlen2
      by_cases hlen16 : l.length ≤ 16
      · have hcanon : canonE l
            = .slice (l ++ List.replicate (np2 l.length - l.length) 0) l.length := by
          unfold canonE
          rw [if_neg (by omega), if_pos hlen16]
        rw [hcanon]
        simp only [insertEncodedHash]
        rw [insertIntoSlice_fresh l c l.length rfl (by omega) hlen16
          (fun x hx => (hcl x hx).1) hcprop.1 hcnot]
        by_cases h16 : l.length < 16
        · rw [if_pos h16]
          unfold canonE
          rw [if_neg (by simp; omega), if_pos (by simp; omega)]
          rw [List.length_append, List.length_singleton]
        · rw [if_neg h16]
          unfold canonE
          rw [if_neg (by simp; omega), if_neg (by simp; omega)]
          congr 1
          rw [List.toFinset_append]
          rw [show ([c] : List ℕ).toFinset = {c} by simp]
          rw [Finset.union_comm, Finset.insert_eq]
      · push_neg at hlen16
        have hcanon : canonE l = .hset l.toFinset := by
          unfold canonE
          rw [if_neg (by omega), if_neg (by omega)]
        rw [hcanon]
        simp only [insertEncodedHash]
        have hcard : l.toFinset.card = l.length := List.toFinset_card_of_nodup hndl
        rw [insertIntoSet_no_promote P W p g l.toFinset c
          (by rw [hcard]; exact hp l.length (by omega) (by simp))]
        unfold canonE
        rw [if_neg (by simp; omega), if_neg (by simp; omega)]
        congr 1
        rw [List.toFinset_append]
        rw [show ([c] : List ℕ).toFinset = {c} by simp]
        rw [Finset.union_comm, Finset.insert_eq]

/-! ## Invariant preservation -/

theorem slice_reconstruct {buf : List ℕ} {len : ℕ} (h3 : 3 ≤ len) (h16 : len ≤ 16)
    (hbl : buf.length = np2 len) (hz : ∀ c ∈ buf.drop len, c = 0) :
    buf = buf.take len ++ List.replicate (np2 len - len) 0 := by
  obtain ⟨hle, -, -, -, -, -⟩ := np2_facts len h3 h16
  conv_lhs => rw [← List.take_append_drop len buf]
  congr 1
  rw [List.eq_replicate_iff]
  refine ⟨?_, hz⟩
  rw [List.length_drop, hbl]

theorem insertIntoSlice_dup {buf : List ℕ} {len h : ℕ} (h3 : 3 ≤ len)
    (h16 : len ≤ 16) (hbl : buf.length = np2 len)
    (hz : ∀ c ∈ buf.drop len, c = 0) (hh : h ≠ 0) (hmem : h ∈ buf.take len) :
    insertIntoSlice buf len h = .slice buf len := by
  obtain ⟨hle, hle16, -, -, h4iff, hdvd8⟩ := np2_facts len h3 h16
  have hfound : (if buf.length = 4 then containsVectorized 4 buf h
      else containsVectorized 8 (buf.take (8 * ((len + 7) / 8))) h) = true := by
    by_cases h4 : buf.length = 4
    · rw [if_pos h4]
      exact (found4_iff hz hh h4).mpr hmem
    · rw [if_neg h4]
      refine (found8_iff hz hh (by omega) ?_).mpr hmem
      rw [hbl]
      exact hdvd8 (by rw [← hbl]; exact h4)
  simp only [insertIntoSlice, hfound, if_true]

theorem insertEncodedHash_inv (P W : ℕ) (p : ℕ → Bool) (g : ℕ → ℕ → ℕ → ℕ)
    (a : Est) (h : ℕ) (ha : InvE P W p a) (hh0 : h ≠ 0) (hh31 : h < 2 ^ 31) :
    InvE P W p (insertEncodedHash P W p g a h) := by
  cases a with
  | small d =>
    obtain ⟨h1, h2, H1, H2, himp, hne, hd⟩ := ha
    subst hd
    simp only [insertEncodedHash, insertIntoSmall]
    rw [smallH1_pack h1 h2 H1, smallH2_pack h1 h2 H1 H2]
    by_cases hz1 : h1 = 0
    · rw [if_pos hz1]
      have hz2 : h2 = 0 := himp hz1
      subst hz1; subst hz2
      refine ⟨h, 0, hh31, by norm_num, fun hh => absurd hh hh0, by simp, ?_⟩
      simp
    · rw [if_neg hz1]
      by_cases he1 : h1 = h
      · rw [if_pos he1]
        exact ⟨h1, h2, H1, H2, himp, hne, rfl⟩
      · rw [if_neg he1]
        by_cases hz2 : h2 = 0
        · rw [if_pos hz2]
          subst hz2
          refine ⟨h1, h, H1, hh31, fun hh => absurd hh hz1, fun _ => he1, ?_⟩
          rw [show ((0:ℕ) <<< 33) = 0 by simp, Nat.or_zero]
        · rw [if_neg hz2]
          by_cases he2 : h2 = h
          · rw [if_pos he2]
            exact ⟨h1, h2, H1, H2, himp, hne, rfl⟩
          · rw [if_neg he2]
            have htake3 : List.take 3 [h1, h2, h, 0] = [h1, h2, h] := rfl
            have hdrop3 : List.drop 3 [h1, h2, h, 0] = [0] := rfl
            refine ⟨by norm_num, by norm_num,
              by simp [show np2 3 = 4 by decide], ?_, ?_, ?_⟩
            · rw [htake3]
              exact List.nodup_cons.mpr ⟨by simp [hne hz2, he1],
                List.nodup_cons.mpr ⟨by simp [he2], List.nodup_cons.mpr (by simp)⟩⟩
            · intro x hx
              rw [htake3] at hx
              simp only [List.mem_cons, List.not_mem_nil, or_false] at hx
              rcases hx with rfl | rfl | rfl
              · exact ⟨hz1, H1⟩
              · exact ⟨hz2, H2⟩
              · exact ⟨hh0, hh31⟩
            · intro x hx
              rw [hdrop3, List.mem_singleton] at hx
              exact hx
  | slice buf len =>
    obtain ⟨h3, h16, hbl, hnodup, hmem, hz⟩ := ha
    simp only [insertEncodedHash]
    by_cases hdup : h ∈ buf.take len
    · rw [insertIntoSlice_dup h3 h16 hbl hz hh0 hdup]
      exact ⟨h3, h16, hbl, hnodup, hmem, hz⟩
    · have hrecon := slice_reconstruct h3 h16 hbl hz
      have hlentake : (buf.take len).length = len := by
        obtain ⟨hle, -, -, -, -, -⟩ := np2_facts len h3 h16
        rw [List.length_take, hbl]
        omega
      rw [hrecon, insertIntoSlice_fresh (buf.take len) h len hlentake h3 h16
        (fun x hx => (hmem x hx).1) hh0 hdup]
      by_cases h16' : len < 16
      · rw [if_pos h16']
        obtain ⟨hle', hle16', -, -, -, -⟩ := np2_facts (len + 1) (by omega) (by omega)
        refine ⟨by omega, by omega, ?_, ?_, ?_, ?_⟩
        · rw [List.length_append, List.length_append, List.length_replicate,
            List.length_singleton, hlentake]
          omega
        · rw [List.take_left' (by rw [List.length_append, List.length_singleton,
            hlentake])]
          rw [List.nodup_append]
          exact ⟨hnodup, List.nodup_singleton h, by
            intro x hx hx2
            rw [List.mem_singleton] at hx2
            exact hdup (hx2 ▸ hx)⟩
        · intro x hx
          rw [List.take_left' (by rw [List.length_append, List.length_singleton,
            hlentake])] at hx
          rcases List.mem_append.mp hx with hx | hx
          · exact hmem x hx
          · rw [List.mem_singleton] at hx
            exact hx ▸ ⟨hh0, hh31⟩
        · intro x hx
          rw [List.drop_left' (by rw [List.length_append, List.length_singleton,
            hlentake])] at hx
          exact List.eq_of_mem_replicate hx
      · rw [if_neg h16']
        have hlen16 : len = 16 := by omega
        have hcard : (insert h (buf.take len).toFinset).card = 17 := by
          rw [Finset.card_insert_of_not_mem (by
            rw [List.mem_toFinset]; exact hdup)]
          rw [List.toFinset_card_of_nodup hnodup, hlentake, hlen16]
        refine ⟨by omega, ?_, ?_⟩
        · intro x hx
          rcases Finset.mem_insert.mp hx with hx | hx
          · exact hx ▸ ⟨hh0, hh31⟩
          · rw [List.mem_toFinset] at hx
            exact hmem x hx
        · intro k h17 hk
          rw [hcard] at hk
          omega
  | hset s =>
    obtain ⟨hcard, hmem, hrange⟩ := ha
    simp only [insertEncodedHash, insertIntoSet]
    by_cases hp : p s.card = true
    · rw [if_pos hp]
      show (insertIntoHll W g _ _ _).length = hllSliceLen P W
      rw [insertIntoHll_length, mergeHllList_length, hllInit_length]
    · rw [if_neg hp]
      have hp' : p s.card = false := by
        cases hcase : p s.card
        · rfl
        · exact absurd hcase hp
      have hsub : s.card ≤ (insert h s).card := Finset.card_le_card (Finset.subset_insert h s)
      have hsup : (insert h s).card ≤ s.card + 1 := Finset.card_insert_le h s
      refine ⟨by omega, ?_, ?_⟩
      · intro x hx
        rcases Finset.mem_insert.mp hx with hx | hx
        · exact hx ▸ ⟨hh0, hh31⟩
        · exact hmem x hx
      · intro k h17 hk
        by_cases hkc : k < s.card
        · exact hrange k h17 hkc
        · have : k = s.card := by omega
          exact this ▸ hp'
  | hll buf =>
    simp only [insertEncodedHash]
    show (insertIntoHll W g _ _ _).length = hllSliceLen P W
    rw [insertIntoHll_length]
    exact ha

theorem foldl_insertEncoded_inv (P W : ℕ) (p : ℕ → Bool) (g : ℕ → ℕ → ℕ → ℕ) :
    ∀ (l : List ℕ) (a : Est), (∀ x ∈ l, x ≠ 0 ∧ x < 2 ^ 31) → InvE P W p a →
    InvE P W p (l.foldl (insertEncodedHash P W p g) a) := by
  intro l
  induction l with
  | nil => intro a _ ha; exact ha
  | cons c cs ih =>
    intro a hl ha
    rw [List.foldl_cons]
    exact ih _ (fun x hx => hl x (by simp [hx]))
      (insertEncodedHash_inv P W p g a c ha (hl c (by simp)).1 (hl c (by simp)).2)

theorem insertHash_inv (P W : ℕ) (p : ℕ → Bool) (g : ℕ → ℕ → ℕ → ℕ)
    (a : Est) (hash : ℕ) (hW : W ≤ 6) (ha : InvE P W p a) :
    InvE P W p (insertHash P W p g a hash) := by
  cases a with
  | hll buf =>
    simp only [insertHash]
    show (insertIntoHll W g _ _ _).length = hllSliceLen P W
    rw [insertIntoHll_length]
    exact ha
  | small d =>
    exact insertEncodedHash_inv P W p g _ _ ha
      (encodeHash_ne_zero P W hash) (encodeHash_lt P W hash hW)
  | slice buf len =>
    exact insertEncodedHash_inv P W p g _ _ ha
      (encodeHash_ne_zero P W hash) (encodeHash_lt P W hash hW)
  | hset s =>
    exact insertEncodedHash_inv P W p g _ _ ha
      (encodeHash_ne_zero P W hash) (encodeHash_lt P W hash hW)

theorem foldl_length_preserved {α : Type} (f : List ℕ → α → List ℕ)
    (hf : ∀ b x, (f b x).length = b.length) :
    ∀ (l : List α) (b : List ℕ), (l.foldl f b).length = b.length := by
  intro l
  induction l with
  | nil => intro b; rfl
  | cons x xs ih => intro b; rw [List.foldl_cons, ih, hf]

theorem invE_hll_intro (P W : ℕ) (p : ℕ → Bool) {buf : List ℕ}
    (h : buf.length = hllSliceLen P W) : InvE P W p (.hll buf) := h

theorem mergeE_inv (P W : ℕ) (p : ℕ → Bool) (g : ℕ → ℕ → ℕ → ℕ) (a b : Est)
    (ha : InvE P W p a) (hb : InvE P W p b) : InvE P W p (mergeE P W p g a b) := by
  cases b with
  | small d =>
    obtain ⟨h1, h2, H1, H2, himp, hne, hd⟩ := hb
    subst hd
    simp only [mergeE]
    rw [smallH1_pack h1 h2 H1, smallH2_pack h1 h2 H1 H2]
    by_cases hz1 : h1 = 0
    · have hz2 := himp hz1
      rw [if_neg (fun hc => hc hz2), if_neg (fun hc => hc hz1)]
      exact ha
    · by_cases hz2 : h2 = 0
      · rw [if_neg (fun hc => hc hz2), if_pos hz1]
        exact insertEncodedHash_inv P W p g a h1 ha hz1 H1
      · rw [if_pos hz2, if_pos hz1]
        exact insertEncodedHash_inv P W p g _ h2
          (insertEncodedHash_inv P W p g a h1 ha hz1 H1) hz2 H2
  | slice buf len =>
    obtain ⟨h3, h16, hbl, hnodup, hmem, hz⟩ := hb
    simp only [mergeE]
    exact foldl_insertEncoded_inv P W p g _ a hmem ha
  | hset s =>
    obtain ⟨hcard, hmem, hrange⟩ := hb
    simp only [mergeE]
    refine foldl_insertEncoded_inv P W p g _ a ?_ ha
    intro x hx
    exact hmem x ((Finset.mem_sort _).mp hx)
  | hll rbuf =>
    have hb' : rbuf.length = hllSliceLen P W := hb
    cases a with
    | small d =>
      simp only [mergeE]
      exact invE_hll_intro P W p (by
        split <;> split <;> simp [insertIntoHll_length, hb'])
    | slice buf len =>
      simp only [mergeE]
      exact invE_hll_intro P W p (by rw [mergeHllList_length]; exact hb')
    | hset s =>
      simp only [mergeE]
      exact invE_hll_intro P W p (by rw [mergeHllList_length]; exact hb')
    | hll lbuf =>
      have ha' : lbuf.length = hllSliceLen P W := ha
      simp only [mergeE]
      refine invE_hll_intro P W p ?_
      rw [foldl_length_preserved _ ?hstep _ lbuf]
      · exact ha'
      case hstep =>
        intro b i
        dsimp only
        split
        · rw [setRegister_length]
        · rfl

theorem reach_inv (P W : ℕ) (p : ℕ → Bool) (g : ℕ → ℕ → ℕ → ℕ) (hW : W ≤ 6)
    (a : Est) (h : ReachableE P W p g a) : InvE P W p a := by
  induction h with
  | base =>
    exact ⟨0, 0, by norm_num, by norm_num, fun _ => rfl,
      fun hc => absurd rfl hc, by simp⟩
  | ins e hash _ ih => exact insertHash_inv P W p g e hash hW ih
  | mrg x y _ _ ihx ihy => exact mergeE_inv P W p g x y ihx ihy

theorem cloneE_eq_self (P W : ℕ) (p : ℕ → Bool) (g : ℕ → ℕ → ℕ → ℕ)
    (a : Est) (ha : InvE P W p a) : cloneE P W p g a = a := by
  cases a with
  | small d =>
    obtain ⟨h1, h2, H1, H2, himp, hne, hd⟩ := ha
    subst hd
    unfold cloneE
    simp only [mergeE]
    rw [smallH1_pack h1 h2 H1, smallH2_pack h1 h2 H1 H2]
    by_cases hz1 : h1 = 0
    · have hz2 := himp hz1
      rw [if_neg (fun hc => hc hz2), if_neg (fun hc => hc hz1)]
      subst hz1; subst hz2
      simp [newE]
    · have ha1 : insertEncodedHash P W p g newE h1
          = .small ((h1 <<< 2) ||| (0 <<< 33)) := by
        simp only [newE, insertEncodedHash, insertIntoSmall]
        rw [if_pos smallH1_zero]
        congr 1
        simp
      by_cases hz2 : h2 = 0
      · rw [if_neg (fun hc => hc hz2), if_pos hz1, ha1]
        subst hz2
        rfl
      · rw [if_pos hz2, if_pos hz1, ha1]
        simp only [insertEncodedHash, insertIntoSmall]
        rw [smallH1_pack h1 0 H1, smallH2_pack h1 0 H1 (by norm_num)]
        rw [if_neg hz1, if_neg (hne hz2), if_pos rfl]
        congr 1
        rw [show ((0:ℕ) <<< 33) = 0 by simp, Nat.or_zero]
  | slice buf len =>
    obtain ⟨h3, h16, hbl, hnodup, hmem, hz⟩ := ha
    unfold cloneE
    simp only [mergeE]
    rw [replay P W p g (buf.take len) hmem hnodup (by
      intro k h17 hk
      have hlt : (buf.take len).length ≤ 16 := by
        rw [List.length_take]
        omega
      omega)]
    have hlentake : (buf.take len).length = len := by
      obtain ⟨hle, -, -, -, -, -⟩ := np2_facts len h3 h16
      rw [List.length_take]
      omega
    unfold canonE
    rw [hlentake]
    rw [if_neg (by omega), if_pos h16]
    congr 1
    exact (slice_reconstruct h3 h16 hbl hz).symm
  | hset s =>
    obtain ⟨hcard, hmem, hrange⟩ := ha
    unfold cloneE
    simp only [mergeE]
    rw [replay P W p g (s.sort (· ≤ ·))
      (fun x hx => hmem x ((Finset.mem_sort _).mp hx))
      (Finset.sort_nodup _ s) (by
        intro k h17 hk
        rw [Finset.length_sort] at hk
        exact hrange k h17 hk)]
    unfold canonE
    rw [Finset.length_sort]
    rw [if_neg (by omega), if_neg (by omega)]
    congr 1
    exact Finset.sort_toFinset _ s
  | hll buf =>
    unfold cloneE
    simp only [mergeE, newE]
    rw [if_neg (fun hc => hc smallH1_zero), if_neg (fun hc => hc smallH2_zero)]

/-! ## Claim theorems -/

/-- C4: for every estimator state reachable through new, insert and merge
(valid parameters P in 4..18, W in 4..6), the clone — implemented exactly as
the source does, by merging the estimator into a fresh empty one — is equal
to the original under the implemented structural equality (same
representation tag; equal state word for Small, equal slices for Slice and
HyperLogLog, equal sets for HashSet), and produces the same estimate. -/
theorem claim_c4_clone_eq (P W : ℕ) (p : ℕ → Bool) (g : ℕ → ℕ → ℕ → ℕ)
    (f : List ℕ → ℕ) (a : Est) (hP1 : 4 ≤ P) (hP2 : P ≤ 18)
    (hW1 : 4 ≤ W) (hW2 : W ≤ 6) (ha : ReachableE P W p g a) :
    beqE (cloneE P W p g a) a = true
      ∧ estimateE f (cloneE P W p g a) = estimateE f a := by
  have hinv := reach_inv P W p g hW2 a ha
  rw [cloneE_eq_self P W p g a hinv]
  exact ⟨beqE_refl a, rfl⟩

/-- Witness for C4 at the empty estimator with concrete parameters. -/
theorem claim_c4_clone_eq_witness :
    beqE (cloneE 12 6 (fun _ => false) (fun s _ _ => s) newE) newE = true
      ∧ estimateE (fun _ => 0) (cloneE 12 6 (fun _ => false) (fun s _ _ => s) newE)
        = estimateE (fun _ => 0) newE :=
  claim_c4_clone_eq 12 6 (fun _ => false) (fun s _ _ => s) (fun _ => 0) newE
    (by norm_num) (by norm_num) (by norm_num) (by norm_num) ReachableE.base

/-- C5 counterexample: at P = 12, W = 6 and h = 2^64 - 1 the shifted
complement ~h >> P is zero, its trailing-zero count is 64 and the rank is
65, which does not fit the 6-bit rank field: decode (encode h) returns rank
65 mod 64 = 1 (and for other such h also corrupts idx), not the direct
dense pair (h & (M-1), 1 + tz(~h >> P)) = (4095, 65) demanded by the
claim. -/
theorem claim_c5_counterexample :
    decodeHash 12 6 (encodeHash 12 6 (2 ^ 64 - 1))
      ≠ ((2 ^ 64 - 1) &&& (2 ^ 12 - 1), tz64 (unot64 (2 ^ 64 - 1) >>> 12) + 1) := by
  decide

/-- C5 amended: for every valid P, W and every 64-bit hash whose rank
1 + tz(~h >> P) fits in the W-bit rank field, decoding the sparse encoding
recovers exactly the pair used by direct dense insertion,
(h & (M - 1), 1 + tz(~h >> P)).  (With W = 6 the only failures are the
hashes whose bits P..63 are all ones, where the rank is 65; with W = 4 or
W = 5 every hash whose rank reaches 2^W also fails.) -/
theorem claim_c5_amended (P W h : ℕ) (hP1 : 4 ≤ P) (hP2 : P ≤ 18)
    (hW1 : 4 ≤ W) (hW2 : W ≤ 6) (hh : h < 2 ^ 64)
    (hr : tz64 (unot64 h >>> P) + 1 < 2 ^ W) :
    decodeHash P W (encodeHash P W h)
      = (h &&& (2 ^ P - 1), tz64 (unot64 h >>> P) + 1) := by
  simp only [encodeHash, decodeHash]
  have hi : (h % 2 ^ 32) &&& (2 ^ (32 - W - 1) - 1) = h % 2 ^ (32 - W - 1) := by
    rw [Nat.and_pow_two_sub_one_eq_mod,
      Nat.mod_mod_of_dvd h (pow_dvd_pow 2 (by omega))]
  have henc : ((h % 2 ^ 32) &&& (2 ^ (32 - W - 1) - 1)) <<< W
        ||| (tz64 (unot64 h >>> P) + 1)
      = ((h % 2 ^ 32) &&& (2 ^ (32 - W - 1) - 1)) * 2 ^ W
        + (tz64 (unot64 h >>> P) + 1) :=
    shiftLeft_lor_eq_add W _ _ hr
  rw [henc, hi]
  have hrank : (h % 2 ^ (32 - W - 1) * 2 ^ W + (tz64 (unot64 h >>> P) + 1))
      &&& (2 ^ W - 1) = tz64 (unot64 h >>> P) + 1 := by
    rw [Nat.and_pow_two_sub_one_eq_mod,
      Nat.mul_comm (h % 2 ^ (32 - W - 1)) (2 ^ W), Nat.mul_add_mod]
    exact Nat.mod_eq_of_lt hr
  have hdiv : (h % 2 ^ (32 - W - 1) * 2 ^ W + (tz64 (unot64 h >>> P) + 1))
      >>> W = h % 2 ^ (32 - W - 1) := by
    rw [Nat.shiftRight_eq_div_pow, Nat.add_comm,
      Nat.add_mul_div_right _ _ (by positivity : (0:ℕ) < 2 ^ W),
      Nat.div_eq_of_lt hr, Nat.zero_add]
  rw [hrank, hdiv]
  have hidx : (h % 2 ^ (32 - W - 1)) &&& (2 ^ P - 1) = h &&& (2 ^ P - 1) := by
    rw [Nat.and_pow_two_sub_one_eq_mod, Nat.and_pow_two_sub_one_eq_mod,
      Nat.mod_mod_of_dvd h (pow_dvd_pow 2 (by omega))]
  rw [hidx]

/-- Witness for C5 amended at P = 12, W = 6, h = 5. -/
theorem claim_c5_amended_witness :
    ((4:ℕ) ≤ 12 ∧ (12:ℕ) ≤ 18 ∧ (4:ℕ) ≤ 6 ∧ (6:ℕ) ≤ 6 ∧ (5:ℕ) < 2 ^ 64
      ∧ tz64 (unot64 5 >>> 12) + 1 < 2 ^ 6)
    ∧ decodeHash 12 6 (encodeHash 12 6 5)
      = (5 &&& (2 ^ 12 - 1), tz64 (unot64 5 >>> 12) + 1) :=
  ⟨by decide,
    claim_c5_amended 12 6 5 (by decide) (by decide) (by decide) (by decide)
      (by decide) (by decide)⟩

/-- C6: insert_into_small follows exactly the claimed decision sequence on
the two inline slots (fill slot 1, absorb a duplicate of slot 1, fill slot
2, absorb a duplicate of slot 2, otherwise promote to the slice
[h1, h2, code, 0] with in-use length 3), and estimate_small returns the
number of non-empty slots on every word where slot 2 is only used after
slot 1. -/
theorem claim_c6_small (d h : ℕ) :
    (smallH1 d = 0 → insertIntoSmall d h = .small (d ||| (h <<< 2))) ∧
    (smallH1 d ≠ 0 → smallH1 d = h → insertIntoSmall d h = .small d) ∧
    (smallH1 d ≠ 0 → smallH1 d ≠ h → smallH2 d = 0 →
      insertIntoSmall d h = .small (d ||| (h <<< 33))) ∧
    (smallH1 d ≠ 0 → smallH1 d ≠ h → smallH2 d ≠ 0 → smallH2 d = h →
      insertIntoSmall d h = .small d) ∧
    (smallH1 d ≠ 0 → smallH1 d ≠ h → smallH2 d ≠ 0 → smallH2 d ≠ h →
      insertIntoSmall d h = .slice [smallH1 d, smallH2 d, h, 0] 3) ∧
    ((smallH2 d ≠ 0 → smallH1 d ≠ 0) →
      estimateSmall d = (if smallH1 d = 0 then 0 else 1)
        + (if smallH2 d = 0 then 0 else 1)) := by
  refine ⟨?_, ?_, ?_, ?_, ?_, ?_⟩
  · intro h1z
    simp only [insertIntoSmall]
    rw [if_pos h1z]
  · intro h1nz h1e
    simp only [insertIntoSmall]
    rw [if_neg h1nz, if_pos h1e]
  · intro h1nz h1ne h2z
    simp only [insertIntoSmall]
    rw [if_neg h1nz, if_neg h1ne, if_pos h2z]
  · intro h1nz h1ne h2nz h2e
    simp only [insertIntoSmall]
    rw [if_neg h1nz, if_neg h1ne, if_neg h2nz, if_pos h2e]
  · intro h1nz h1ne h2nz h2ne
    simp only [insertIntoSmall]
    rw [if_neg h1nz, if_neg h1ne, if_neg h2nz, if_neg h2ne]
  · intro hord
    unfold estimateSmall
    by_cases h1z : smallH1 d = 0
    · have h2z : smallH2 d = 0 := by
        by_contra h2nz
        exact hord h2nz h1z
      rw [if_pos ⟨h1z, h2z⟩, if_pos h1z, if_pos h2z]
    · by_cases h2z : smallH2 d = 0
      · rw [if_neg (fun hc => h1z hc.1), if_pos h2z, if_neg h1z, if_pos h2z]
      · rw [if_neg (fun hc => h1z hc.1), if_neg h2z, if_neg h1z, if_neg h2z]

/-- Witness for C6 at the empty word and the code 65. -/
theorem claim_c6_small_witness :
    insertIntoSmall 0 65 = .small (0 ||| (65 <<< 2)) ∧ estimateSmall 0 = 0 := by
  constructor
  · exact (claim_c6_small 0 65).1 smallH1_zero
  · have h := (claim_c6_small 0 65).2.2.2.2.2 (fun hc => absurd smallH2_zero hc)
    rw [smallH1_zero, smallH2_zero] at h
    simpa using h

/-- C8: the claim fails at the valid parameters P = 4, W = 5.  There
M*W = 80 is not a multiple of 32, the flooring in HLL_SLICE_LEN = M*W/32 + 3
swallows the intended guard word, and for the registers 13, 14, 15 the
second of the two words touched by get_register and set_register has index
idx*W/32 + 3 = 5 = HLL_SLICE_LEN, one past the end of the buffer, so the
unchecked two-word access is out of bounds. -/
theorem claim_c8_guard_oob :
    13 < 2 ^ 4 ∧ hllSliceLen 4 5 = 5 ∧ regWordIdx 5 13 + 1 = 5
      ∧ ¬(regWordIdx 5 13 + 1 < hllSliceLen 4 5) := by
  decide

/-- C9 counterexample: inserting the three keys of the inclusive range
0..=2 through the modelled hasher leaves the estimator in the Slice
representation with estimate 3 and size 24 — matching the repository test
table at n = 3 — and not in the claimed Small representation with estimate
2 and size 8. -/
theorem claim_c9_counterexample :
    representationOf (scenarioS1 3) = Representation.slice
      ∧ estimateE (fun _ => 0) (scenarioS1 3) = 3
      ∧ sizeOfE (fun _ => 0) 12 6 (scenarioS1 3) = 24
      ∧ ¬(representationOf (scenarioS1 3) = Representation.small
          ∧ estimateE (fun _ => 0) (scenarioS1 3) = 2
          ∧ sizeOfE (fun _ => 0) 12 6 (scenarioS1 3) = 8) := by
  decide

/-- C9 amended: with P = 12, W = 6 and the modelled default hasher,
inserting the two integer keys 0 and 1 (the spec scenario is off by one:
its Expected column matches the exclusive range 0..2) leaves the estimator
in the Small representation with estimate 2 and size_of 8. -/
theorem claim_c9_amended :
    representationOf (scenarioS1 2) = Representation.small
      ∧ estimateE (fun _ => 0) (scenarioS1 2) = 2
      ∧ sizeOfE (fun _ => 0) 12 6 (scenarioS1 2) = 8 := by
  decide

/-- C10: encode_hash never returns 0 (the rank term is at least 1 and is
or-ed in), so an encoded hash never collides with the empty-slot sentinel;
consequently the vectorized slice scan over the length rounded up to a
multiple of 8 finds an encoded hash exactly when it lies among the in-use
entries — the scanned zero tail can never produce a false duplicate
match. -/
theorem claim_c10_encode_nonzero (P W h : ℕ) (buf : List ℕ) (len : ℕ)
    (hz : ∀ c ∈ buf.drop len, c = 0) (hlen : len ≤ buf.length)
    (hdvd : 8 ∣ buf.length) :
    encodeHash P W h ≠ 0
      ∧ (containsVectorized 8 (buf.take (8 * ((len + 7) / 8)))
            (encodeHash P W h) = true
          ↔ encodeHash P W h ∈ buf.take len) :=
  ⟨encodeHash_ne_zero P W h,
    found8_iff hz (encodeHash_ne_zero P W h) hlen hdvd⟩

/-- Witness for C10 on a capacity-8 buffer with three in-use entries. -/
theorem claim_c10_encode_nonzero_witness :
    ((∀ c ∈ ([65, 129, 193, 0, 0, 0, 0, 0] : List ℕ).drop 3, c = 0)
      ∧ 3 ≤ ([65, 129, 193, 0, 0, 0, 0, 0] : List ℕ).length
      ∧ 8 ∣ ([65, 129, 193, 0, 0, 0, 0, 0] : List ℕ).length)
    ∧ (encodeHash 12 6 1 ≠ 0
      ∧ (containsVectorized 8
            (([65, 129, 193, 0, 0, 0, 0, 0] : List ℕ).take (8 * ((3 + 7) / 8)))
            (encodeHash 12 6 1) = true
          ↔ encodeHash 12 6 1 ∈ ([65, 129, 193, 0, 0, 0, 0, 0] : List ℕ).take 3)) :=
  ⟨⟨by decide, by decide, by decide⟩,
    claim_c10_encode_nonzero 12 6 1 [65, 129, 193, 0, 0, 0, 0, 0] 3
      (by decide) (by decide) (by decide)⟩

end CardEst
